import Mathlib

/-
Verification of the malicious-security DZKP verifier of the IPA repository
(src/ipa-core/src/protocol/ipa_prf/malicious_security/verifier.rs) and of the
replicated-sharing test fixtures (src/src/test_fixture/sharing.rs), over a
shallow embedding in Lean 4.  Machine integers play no role here: all protocol
values live in a prime field, embedded as an arbitrary Lean field (the concrete
scenarios use ZMod 31, matching the Fp31 type of the repository).
-/

namespace IPA

/-- Modelled from the spec: the module lagrange.rs is not part of the excerpted
sources.  CanonicalLagrangeDenominator(N) precomputes, for each canonical index
i in [0,N), the field inverse of the product over j different from i of
(point_i - point_j), the canonical points being 0, 1, ..., N-1 cast into the
field. -/
def canonicalLagrangeDenominator (F : Type) [Field F] (N i : ℕ) : F :=
  ((((List.range N).filter (fun j => j ≠ i)).map (fun j => (i : F) - (j : F))).prod)⁻¹

/-- Modelled from the spec: LagrangeTable(denominator, r) holds the N
interpolation coefficients l_i(r), each the denominator times the product over
j different from i of (r - point_j). -/
def lagrangeTable (F : Type) [Field F] (N : ℕ) (r : F) : List F :=
  (List.range N).map (fun i =>
    canonicalLagrangeDenominator F N i *
      (((List.range N).filter (fun j => j ≠ i)).map (fun j => r - (j : F))).prod)

/-- Modelled from the spec: eval applies the precomputed coefficients to the
input values, returning the sum of v_i times l_i(r). -/
def lagrangeEval {F : Type} [Field F] (tbl values : List F) : F :=
  (List.zipWith (fun v c => v * c) values tbl).sum

/-- Verifier state, from verifier.rs: a sequence of chunks (each a GenericArray
of length lam, embedded as a list) and the running out_share. -/
structure ProofVerifier (F : Type) where
  u_or_v : List (List F)
  out_share : F
deriving DecidableEq

/-- The chunk-compression loop of ProofVerifier::verify_proof (verifier.rs
lines 65-77): repeatedly take one chunk plus up to lam - 1 further chunks,
evaluate each with the size-lam Lagrange table, and emit one output chunk of
length lam whose unfilled trailing positions stay F::ZERO.  The fuel argument
is a structural bound on the number of loop iterations; it is unreachable at 0
whenever it starts at least at the length of the chunk list. -/
def compressChunksAux (F : Type) [Field F] (lam : ℕ) (tbl : List F) :
    ℕ → List (List F) → List (List F)
  | _, [] => []
  | 0, _ :: _ => []
  | fuel + 1, c :: cs =>
      ((List.range lam).map
          (fun i => (((c :: cs.take (lam - 1)).map (lagrangeEval tbl)).getD i 0)))
        :: compressChunksAux F lam tbl fuel (cs.drop (lam - 1))

/-- The chunk-compression loop of verify_proof, started with enough fuel. -/
def compressChunks (F : Type) [Field F] (lam : ℕ) (tbl : List F)
    (chunks : List (List F)) : List (List F) :=
  compressChunksAux F lam tbl chunks.length chunks

/-- ProofVerifier::verify_proof (verifier.rs lines 40-85): build the size
(2 lam - 1) Lagrange table at r, evaluate the proof to get g_r_share, fold the
first lam proof entries into sum_share, set b_share to sum_share - out_share,
compress the chunk sequence with the size-lam table, and return b_share with
the new verifier state. -/
def verify_proof (F : Type) [Field F] (lam : ℕ) (u_or_v : List (List F))
    (out_share : F) (zkp : List F) (r : F) : F × ProofVerifier F :=
  let lagrange_table_g := lagrangeTable F (2 * lam - 1) r
  let g_r_share := lagrangeEval lagrange_table_g zkp
  let sum_share := (List.range lam).foldl (fun acc i => acc + zkp.getD i 0) 0
  let b_share := sum_share - out_share
  let lagrange_table_p_or_q_r := lagrangeTable F lam r
  (b_share,
   { u_or_v := compressChunks F lam lagrange_table_p_or_q_r u_or_v,
     out_share := g_r_share })

/-- ProofVerifier::verify_final_proof (verifier.rs lines 87-114): the source
asserts that exactly one chunk remains (line 99), embedded as returning none
otherwise; it then evaluates [p_or_q_0, chunk] with a size (lam + 1) table at r
and the proof with a size (2 lam + 1) table at r. -/
def verify_final_proof (F : Type) [Field F] (lam : ℕ) (self : ProofVerifier F)
    (zkp : List F) (r : F) (p_or_q_0 : F) : Option (F × F) :=
  if self.u_or_v.length = 1 then
    let lagrange_table := lagrangeTable F (lam + 1) r
    let p_or_q := p_or_q_0 :: self.u_or_v.headD []
    let p_or_q_extrapolated := lagrangeEval lagrange_table p_or_q
    let lagrange_table_g := lagrangeTable F (2 * lam + 1) r
    let out_share := lagrangeEval lagrange_table_g zkp
    some (p_or_q_extrapolated, out_share)
  else none

/-- Method-call embedding of verify_final_proof: the Rust method takes the
receiver by shared reference, so the call is embedded as returning both the
result and the post-call state. -/
def verify_final_proof_call (F : Type) [Field F] (lam : ℕ)
    (self : ProofVerifier F) (zkp : List F) (r : F) (p_or_q_0 : F) :
    Option ((F × F) × ProofVerifier F) :=
  (verify_final_proof F lam self zkp r p_or_q_0).map (fun res => (res, self))

/-- Modelled from the spec: the replicated module is not part of the excerpted
sources; a replicated share is the pair (left, right) held by one party. -/
structure Replicated (F : Type) where
  left : F
  right : F
deriving DecidableEq

/-- The share function of src/src/test_fixture/sharing.rs (lines 13-26): the
two rng draws are passed explicitly as x1 and x2. -/
def share (F : Type) [Field F] (input x1 x2 : F) :
    Replicated F × Replicated F × Replicated F :=
  let x3 := input - (x1 + x2)
  ({ left := x1, right := x2 },
   { left := x2, right := x3 },
   { left := x3, right := x1 })

/-- The validate_and_reconstruct function of src/src/test_fixture/sharing.rs
(lines 47-62): the assert_eq chain is embedded as returning none on failure. -/
def validate_and_reconstruct (F : Type) [Field F] [DecidableEq F]
    (s0 s1 s2 : Replicated F) : Option F :=
  if s0.left + s1.left + s2.left = s0.right + s1.right + s2.right ∧
     s0.right = s1.left ∧ s1.right = s2.left ∧ s2.right = s0.left
  then some (s0.left + s1.left + s2.left)
  else none

/-- Modelled from the spec: prover.rs is not part of the excerpted sources.  A
round of three party shares of a proof and of a prior out_share is consistent
with an honest prover when the reconstructed sum of the first lam proof
entries equals the reconstructed out_share; at round 1 the out_share is
F::ZERO at each party, so the reconstructed out_share is the claimed zero
value. -/
def HonestRound (F : Type) [Field F] (lam : ℕ) (zkp0 zkp1 zkp2 : List F)
    (out0 out1 out2 : F) : Prop :=
  (zkp0.take lam).sum + (zkp1.take lam).sum + (zkp2.take lam).sum =
    out0 + out1 + out2

instance : Fact (Nat.Prime 31) := ⟨by norm_num⟩

/-- Round-1 input of the sample_proof_u scenario of verifier.rs, grouped into
chunks of 4. -/
def sampleUChunks : List (List (ZMod 31)) :=
  [[0, 30, 0, 16], [0, 1, 0, 15], [0, 0, 0, 16], [0, 30, 0, 16],
   [29, 1, 1, 15], [0, 0, 1, 15], [2, 30, 30, 16], [0, 0, 30, 16]]

/-- Round 1 of the sample_proof_u scenario. -/
def sampleUStep1 : ZMod 31 × ProofVerifier (ZMod 31) :=
  verify_proof (ZMod 31) 4 sampleUChunks 27 [0, 0, 13, 17, 11, 25, 7] 22

/-- Round 2 of the sample_proof_u scenario, chained on the round-1 output. -/
def sampleUStep2 : ZMod 31 × ProofVerifier (ZMod 31) :=
  verify_proof (ZMod 31) 4 sampleUStep1.2.u_or_v sampleUStep1.2.out_share
    [11, 25, 17, 9, 22, 23, 3] 17

/-- The remaining chunk truncated from lam = 4 to lam = 2, as in the test. -/
def sampleUTrimmed : ProofVerifier (ZMod 31) :=
  { u_or_v := [(sampleUStep2.2.u_or_v.headD []).take 2],
    out_share := sampleUStep2.2.out_share }

/-- The final transition of the sample_proof_u scenario. -/
def sampleUFinal : Option (ZMod 31 × ZMod 31) :=
  verify_final_proof (ZMod 31) 2 sampleUTrimmed [21, 1, 6, 25, 1] 30 12

/-- In ZMod 31 the field inverse is the 29th power, by the little theorem of
Fermat; this lets concrete scenarios be evaluated by kernel reduction. -/
theorem zmod31_inv_eq (a : ZMod 31) : a⁻¹ = a ^ 29 := by
  rcases eq_or_ne a 0 with h | h
  · subst h
    simp
  · refine inv_eq_of_mul_eq_one_right ?_
    have h30 : a ^ 30 = 1 := ZMod.pow_card_sub_one_eq_one h
    calc a * a ^ 29 = a ^ 30 := by ring
    _ = 1 := h30

/-- The index fold of verify_proof over the first lam proof entries equals the
sum of the length-lam prefix of the proof. -/
theorem foldl_add_getD_eq_sum_take {F : Type} [Field F] (zkp : List F) :
    ∀ lam : ℕ, lam ≤ zkp.length →
      (List.range lam).foldl (fun acc i => acc + zkp.getD i 0) 0 =
        (zkp.take lam).sum := by
  intro lam
  induction lam with
  | zero =>
      intro _
      simp
  | succ n ih =>
      intro h
      rw [List.range_succ, List.foldl_append, ih (by omega)]
      simp only [List.foldl_cons, List.foldl_nil]
      rw [List.take_succ, List.sum_append]
      have hn : n < zkp.length := by omega
      simp [List.getD_eq_getElem?_getD, List.getElem?_eq_getElem hn]

/-- C1: for every chunk sequence, prior out_share, proof of length
2 lam - 1 and challenge r, the non-final transition verify_proof returns a
b_share equal to the sum of the first lam proof entries minus the prior
out_share, and a new verifier state whose out_share is the share of g(r)
obtained by evaluating the 2 lam - 1 proof entries with a size (2 lam - 1)
Lagrange table at r. -/
theorem verify_proof_b_share_and_out_share {F : Type} [Field F] (lam : ℕ)
    (chunks : List (List F)) (out_share : F) (zkp : List F) (r : F)
    (hz : zkp.length = 2 * lam - 1) :
    (verify_proof F lam chunks out_share zkp r).1 =
      (zkp.take lam).sum - out_share ∧
    (verify_proof F lam chunks out_share zkp r).2.out_share =
      lagrangeEval (lagrangeTable F (2 * lam - 1) r) zkp := by
  constructor
  · have h1 : (verify_proof F lam chunks out_share zkp r).1 =
        (List.range lam).foldl (fun acc i => acc + zkp.getD i 0) 0 - out_share :=
      rfl
    rw [h1, foldl_add_getD_eq_sum_take zkp lam (by omega)]
  · rfl

/-- Witness for C1 at lam = 1 over ZMod 31. -/
theorem verify_proof_b_share_and_out_share_witness :
    ([(5 : ZMod 31)].length = 2 * 1 - 1) ∧
    ((verify_proof (ZMod 31) 1 [] 2 [5] 0).1 =
        (([(5 : ZMod 31)]).take 1).sum - 2 ∧
      (verify_proof (ZMod 31) 1 [] 2 [5] 0).2.out_share =
        lagrangeEval (lagrangeTable (ZMod 31) (2 * 1 - 1) 0) [5]) :=
  ⟨by decide,
   verify_proof_b_share_and_out_share 1 [] 2 [5] 0 (by decide)⟩

/-- The compression loop maps the empty chunk sequence to the empty sequence,
whatever the fuel. -/
theorem compressChunksAux_nil {F : Type} [Field F] (lam : ℕ) (tbl : List F)
    (fuel : ℕ) : compressChunksAux F lam tbl fuel [] = [] := by
  cases fuel <;> rfl

/-- Ceiling-division arithmetic for one step of the compression loop. -/
theorem ceil_div_step (d n : ℕ) (hd : 1 ≤ d) :
    ((n - (d - 1)) + d - 1) / d + 1 = (n + 1 + d - 1) / d := by
  rcases le_or_lt (d - 1) n with h | h
  · have h1 : (n - (d - 1)) + d - 1 = n := by omega
    have h2 : n + 1 + d - 1 = n + d := by omega
    rw [h1, h2, Nat.add_div_right _ (by omega)]
  · have h1 : (n - (d - 1)) + d - 1 = d - 1 := by omega
    have h2 : n + 1 + d - 1 = n + d := by omega
    rw [h1, h2, Nat.add_div_right _ (by omega), Nat.div_eq_of_lt (by omega),
      Nat.div_eq_of_lt (by omega)]

/-- The compression loop emits exactly the ceiling of the chunk count divided
by lam output chunks. -/
theorem compressChunksAux_length {F : Type} [Field F] (lam : ℕ) (hlam : 1 ≤ lam)
    (tbl : List F) :
    ∀ (fuel : ℕ) (cs : List (List F)), cs.length ≤ fuel →
      (compressChunksAux F lam tbl fuel cs).length = (cs.length + lam - 1) / lam := by
  intro fuel
  induction fuel with
  | zero =>
      intro cs h
      have hnil : cs = [] := List.length_eq_zero.mp (by omega)
      subst hnil
      rw [compressChunksAux_nil]
      simp only [List.length_nil, Nat.zero_add]
      rw [Nat.div_eq_of_lt (by omega)]
  | succ n ih =>
      intro cs h
      cases cs with
      | nil =>
          rw [compressChunksAux_nil]
          simp only [List.length_nil, Nat.zero_add]
          rw [Nat.div_eq_of_lt (by omega)]
      | cons c cs =>
          simp only [List.length_cons] at h
          simp only [compressChunksAux, List.length_cons]
          rw [ih (cs.drop (lam - 1)) (by simp only [List.length_drop]; omega)]
          rw [List.length_drop]
          exact ceil_div_step lam cs.length hlam

/-- The input length is at most lam times the ceiling of its division by
lam. -/
theorem le_mul_ceil (d n : ℕ) (hd : 1 ≤ d) : n ≤ d * ((n + d - 1) / d) := by
  have h1 := Nat.div_add_mod (n + d - 1) d
  have h2 : (n + d - 1) % d < d := Nat.mod_lt _ (by omega)
  omega

/-- The compression loop covers the whole input: the input length is at most
lam times the output length. -/
theorem compressChunksAux_le_mul {F : Type} [Field F] (lam : ℕ) (hlam : 1 ≤ lam)
    (tbl : List F) (fuel : ℕ) (cs : List (List F)) (h : cs.length ≤ fuel) :
    cs.length ≤ lam * (compressChunksAux F lam tbl fuel cs).length := by
  rw [compressChunksAux_length lam hlam tbl fuel cs h]
  exact le_mul_ceil lam cs.length hlam

/-- Every output chunk of the compression loop has length lam. -/
theorem compressChunksAux_chunk_length {F : Type} [Field F] (lam : ℕ)
    (tbl : List F) :
    ∀ (fuel : ℕ) (cs : List (List F)),
      ∀ c ∈ compressChunksAux F lam tbl fuel cs, c.length = lam := by
  intro fuel
  induction fuel with
  | zero =>
      intro cs c hc
      cases cs with
      | nil => rw [compressChunksAux_nil] at hc; cases hc
      | cons x xs => cases hc
  | succ n ih =>
      intro cs c hc
      cases cs with
      | nil => rw [compressChunksAux_nil] at hc; cases hc
      | cons x xs =>
          simp only [compressChunksAux, List.mem_cons] at hc
          rcases hc with rfl | hc
          · simp
          · exact ih (xs.drop (lam - 1)) c hc

/-- Reading a list through getD over an index range appends the zero
padding. -/
theorem range_map_getD_eq_append {F : Type} [Field F] :
    ∀ (lam : ℕ) (l : List F), l.length ≤ lam →
      (List.range lam).map (fun i => l.getD i 0) =
        l ++ List.replicate (lam - l.length) 0 := by
  intro lam
  induction lam with
  | zero =>
      intro l h
      have hnil : l = [] := List.length_eq_zero.mp (by omega)
      subst hnil
      simp
  | succ n ih =>
      intro l h
      cases l with
      | nil =>
          simp [List.getD_nil, List.map_const']
      | cons x xs =>
          have hx : xs.length ≤ n := by
            simp only [List.length_cons] at h
            omega
          rw [List.range_succ_eq_map, List.map_cons, List.map_map]
          have hcomp : ((fun i => (x :: xs).getD i 0) ∘ Nat.succ) =
              (fun i => xs.getD i 0) := by
            funext i
            simp
          have hlen : n + 1 - (xs.length + 1) = n - xs.length := by omega
          rw [hcomp, ih xs hx]
          simp [hlen]

/-- Flattening the compression output yields the collapsed input values
followed by the exact zero padding. -/
theorem compressChunksAux_flatten {F : Type} [Field F] (lam : ℕ) (hlam : 1 ≤ lam)
    (tbl : List F) :
    ∀ (fuel : ℕ) (cs : List (List F)), cs.length ≤ fuel →
      (compressChunksAux F lam tbl fuel cs).flatten =
        cs.map (lagrangeEval tbl) ++
          List.replicate
            (lam * (compressChunksAux F lam tbl fuel cs).length - cs.length) 0 := by
  intro fuel
  induction fuel with
  | zero =>
      intro cs h
      have hnil : cs = [] := List.length_eq_zero.mp (by omega)
      subst hnil
      rw [compressChunksAux_nil]
      simp
  | succ n ih =>
      intro cs h
      cases cs with
      | nil =>
          rw [compressChunksAux_nil]
          simp
      | cons c cs =>
          have hcs : cs.length ≤ n := by
            simp only [List.length_cons] at h
            omega
          have hdrop : (cs.drop (lam - 1)).length ≤ n := by
            simp only [List.length_drop]
            omega
          have hgrp : ((c :: cs.take (lam - 1)).map (lagrangeEval tbl)).length ≤ lam := by
            simp only [List.length_map, List.length_cons, List.length_take]
            omega
          simp only [compressChunksAux, List.flatten_cons, List.length_cons]
          rw [ih (cs.drop (lam - 1)) hdrop,
            range_map_getD_eq_append lam _ hgrp]
          rcases le_or_lt (lam - 1) cs.length with hge | hlt
          · have hgrplen :
                ((c :: cs.take (lam - 1)).map (lagrangeEval tbl)).length = lam := by
              simp only [List.length_map, List.length_cons, List.length_take]
              omega
            have hsplit : (c :: cs).map (lagrangeEval tbl) =
                (c :: cs.take (lam - 1)).map (lagrangeEval tbl) ++
                  (cs.drop (lam - 1)).map (lagrangeEval tbl) := by
              rw [← List.map_append]
              congr 1
              rw [List.cons_append, List.take_append_drop]
            have hK := compressChunksAux_le_mul lam hlam tbl n (cs.drop (lam - 1)) hdrop
            rw [List.length_drop] at hK
            have hcount :
                lam * ((compressChunksAux F lam tbl n (cs.drop (lam - 1))).length + 1)
                    - (cs.length + 1) =
                  lam * (compressChunksAux F lam tbl n (cs.drop (lam - 1))).length
                    - (cs.length - (lam - 1)) := by
              rw [Nat.mul_succ]
              revert hK
              generalize lam * (compressChunksAux F lam tbl n (cs.drop (lam - 1))).length = M
              intro hK
              omega
            rw [hgrplen, Nat.sub_self, List.replicate_zero, List.append_nil,
              hsplit, List.append_assoc, List.length_drop, hcount]
          · have hdropnil : cs.drop (lam - 1) = [] :=
              List.drop_eq_nil_of_le (by omega)
            rw [hdropnil, compressChunksAux_nil]
            have htake : cs.take (lam - 1) = cs :=
              List.take_of_length_le (by omega)
            rw [htake]
            simp only [List.map_nil, List.length_nil, List.length_map,
              List.length_cons, List.nil_append, List.append_nil, Nat.mul_one,
              Nat.zero_add, Nat.mul_zero, Nat.zero_sub, List.replicate_zero]

/-- C2: for every input of n chunks with n at least 1 and challenge r,
verify_proof collapses each input chunk to one field element by evaluating it
with a size-lam Lagrange table at r, regroups every lam collapsed elements
into one output chunk of length lam, zero-pads an incomplete trailing group
with F::ZERO rather than dropping it, and returns a data sequence of exactly
the ceiling of n / lam chunks. -/
theorem verify_proof_output_shape {F : Type} [Field F] (lam : ℕ) (hlam : 1 ≤ lam)
    (chunks : List (List F)) ( _hne : chunks ≠ []) (out_share : F) (zkp : List F)
    (r : F) :
    (verify_proof F lam chunks out_share zkp r).2.u_or_v.length =
      (chunks.length + lam - 1) / lam ∧
    (∀ c ∈ (verify_proof F lam chunks out_share zkp r).2.u_or_v, c.length = lam) ∧
    (verify_proof F lam chunks out_share zkp r).2.u_or_v.flatten =
      chunks.map (lagrangeEval (lagrangeTable F lam r)) ++
        List.replicate
          (lam * (verify_proof F lam chunks out_share zkp r).2.u_or_v.length
            - chunks.length) (0 : F) := by
  have hdef : (verify_proof F lam chunks out_share zkp r).2.u_or_v =
      compressChunksAux F lam (lagrangeTable F lam r) chunks.length chunks := rfl
  rw [hdef]
  exact ⟨compressChunksAux_length lam hlam _ chunks.length chunks le_rfl,
    compressChunksAux_chunk_length lam _ chunks.length chunks,
    compressChunksAux_flatten lam hlam _ chunks.length chunks le_rfl⟩

/-- Witness for C2 at lam = 2 on three chunks over ZMod 31. -/
theorem verify_proof_output_shape_witness :
    (1 ≤ 2) ∧
    ([[1, 2], [3, 4], [5, 6]] : List (List (ZMod 31))) ≠ [] ∧
    ((verify_proof (ZMod 31) 2 [[1, 2], [3, 4], [5, 6]] 0 [1, 2, 3] 7).2.u_or_v.length =
        (([[1, 2], [3, 4], [5, 6]] : List (List (ZMod 31))).length + 2 - 1) / 2 ∧
      (∀ c ∈ (verify_proof (ZMod 31) 2 [[1, 2], [3, 4], [5, 6]] 0 [1, 2, 3] 7).2.u_or_v,
        c.length = 2) ∧
      (verify_proof (ZMod 31) 2 [[1, 2], [3, 4], [5, 6]] 0 [1, 2, 3] 7).2.u_or_v.flatten =
        ([[1, 2], [3, 4], [5, 6]] : List (List (ZMod 31))).map
            (lagrangeEval (lagrangeTable (ZMod 31) 2 7)) ++
          List.replicate
            (2 * (verify_proof (ZMod 31) 2 [[1, 2], [3, 4], [5, 6]] 0 [1, 2, 3] 7).2.u_or_v.length
              - ([[1, 2], [3, 4], [5, 6]] : List (List (ZMod 31))).length) (0 : ZMod 31)) :=
  ⟨by decide, by decide,
    verify_proof_output_shape 2 (by decide) [[1, 2], [3, 4], [5, 6]] (by decide)
      0 [1, 2, 3] 7⟩

/-- C3: for every verifier state holding exactly one chunk, proof of length
2 lam + 1, challenge r and masking value, verify_final_proof returns first the
value obtained by evaluating the masking value followed by the chunk with a
size (lam + 1) Lagrange table at r, and second the value obtained by
evaluating the proof with a size (2 lam + 1) Lagrange table at r. -/
theorem verify_final_proof_formula {F : Type} [Field F] (lam : ℕ)
    (chunk : List F) (out_share : F) (zkp : List F) (r mask : F)
    ( _hc : chunk.length = lam) ( _hz : zkp.length = 2 * lam + 1) :
    verify_final_proof F lam ⟨[chunk], out_share⟩ zkp r mask =
      some (lagrangeEval (lagrangeTable F (lam + 1) r) (mask :: chunk),
        lagrangeEval (lagrangeTable F (2 * lam + 1) r) zkp) := rfl

/-- Witness for C3 at lam = 2 over ZMod 31. -/
theorem verify_final_proof_formula_witness :
    (([1, 2] : List (ZMod 31)).length = 2) ∧
    (([1, 2, 3, 4, 5] : List (ZMod 31)).length = 2 * 2 + 1) ∧
    verify_final_proof (ZMod 31) 2 ⟨[[1, 2]], 5⟩ [1, 2, 3, 4, 5] 3 4 =
      some (lagrangeEval (lagrangeTable (ZMod 31) (2 + 1) 3) (4 :: [1, 2]),
        lagrangeEval (lagrangeTable (ZMod 31) (2 * 2 + 1) 3) [1, 2, 3, 4, 5]) :=
  ⟨by decide, by decide,
    verify_final_proof_formula 2 [1, 2] 5 [1, 2, 3, 4, 5] 3 4 (by decide) (by decide)⟩

/-- C4: for three parties whose proof shares and prior out_share values are
consistent with an honest prover (the reconstructed sum of the first lam proof
entries equals the reconstructed out_share; at round 1 the out_share is
F::ZERO at each party, making the reconstructed out_share the claimed zero
value), the b_share values returned by verify_proof at the three simulated
parties sum to ZERO. -/
theorem honest_b_shares_sum_zero {F : Type} [Field F] (lam : ℕ)
    (zkp0 zkp1 zkp2 : List F) (out0 out1 out2 : F)
    (chunks0 chunks1 chunks2 : List (List F)) (r : F)
    (h0 : lam ≤ zkp0.length) (h1 : lam ≤ zkp1.length) (h2 : lam ≤ zkp2.length)
    (hhonest : HonestRound F lam zkp0 zkp1 zkp2 out0 out1 out2) :
    (verify_proof F lam chunks0 out0 zkp0 r).1 +
      (verify_proof F lam chunks1 out1 zkp1 r).1 +
      (verify_proof F lam chunks2 out2 zkp2 r).1 = 0 := by
  have e0 : (verify_proof F lam chunks0 out0 zkp0 r).1 =
      (zkp0.take lam).sum - out0 := by
    have hd : (verify_proof F lam chunks0 out0 zkp0 r).1 =
        (List.range lam).foldl (fun acc i => acc + zkp0.getD i 0) 0 - out0 := rfl
    rw [hd, foldl_add_getD_eq_sum_take zkp0 lam h0]
  have e1 : (verify_proof F lam chunks1 out1 zkp1 r).1 =
      (zkp1.take lam).sum - out1 := by
    have hd : (verify_proof F lam chunks1 out1 zkp1 r).1 =
        (List.range lam).foldl (fun acc i => acc + zkp1.getD i 0) 0 - out1 := rfl
    rw [hd, foldl_add_getD_eq_sum_take zkp1 lam h1]
  have e2 : (verify_proof F lam chunks2 out2 zkp2 r).1 =
      (zkp2.take lam).sum - out2 := by
    have hd : (verify_proof F lam chunks2 out2 zkp2 r).1 =
        (List.range lam).foldl (fun acc i => acc + zkp2.getD i 0) 0 - out2 := rfl
    rw [hd, foldl_add_getD_eq_sum_take zkp2 lam h2]
  rw [e0, e1, e2]
  unfold HonestRound at hhonest
  linear_combination hhonest

/-- Witness for C4 at lam = 1 over ZMod 31. -/
theorem honest_b_shares_sum_zero_witness :
    (1 ≤ ([0] : List (ZMod 31)).length) ∧
    (1 ≤ ([1] : List (ZMod 31)).length) ∧
    (1 ≤ ([2] : List (ZMod 31)).length) ∧
    HonestRound (ZMod 31) 1 [0] [1] [2] 1 1 1 ∧
    (verify_proof (ZMod 31) 1 [] 1 [0] 6).1 +
      (verify_proof (ZMod 31) 1 [] 1 [1] 6).1 +
      (verify_proof (ZMod 31) 1 [] 1 [2] 6).1 = 0 :=
  ⟨by decide, by decide, by decide, by unfold HonestRound; decide,
    honest_b_shares_sum_zero 1 [0] [1] [2] 1 1 1 [] [] [] 6
      (by decide) (by decide) (by decide) (by unfold HonestRound; decide)⟩

/-- C6: invoking the final transition verify_final_proof on a verifier state
holding more than one chunk fails rather than returning a result. -/
theorem verify_final_proof_multi_chunk_none {F : Type} [Field F] (lam : ℕ)
    (pv : ProofVerifier F) (zkp : List F) (r mask : F)
    (h : 1 < pv.u_or_v.length) :
    verify_final_proof F lam pv zkp r mask = none := by
  unfold verify_final_proof
  rw [if_neg (by omega)]

/-- Witness for C6 on a two-chunk state over ZMod 31. -/
theorem verify_final_proof_multi_chunk_none_witness :
    (1 < (ProofVerifier.u_or_v ⟨[[1], [2]], 0⟩ : List (List (ZMod 31))).length) ∧
    verify_final_proof (ZMod 31) 1 ⟨[[1], [2]], 0⟩ [1, 2, 3] 0 0 = none :=
  ⟨by decide,
    verify_final_proof_multi_chunk_none 1 ⟨[[1], [2]], 0⟩ [1, 2, 3] 0 0 (by decide)⟩

/-- C7: for every field element x and every choice of randomness, the three
replicated shares produced by the share function satisfy the ring property,
the sum of all left components and the sum of all right components both equal
x, and validate_and_reconstruct applied to them returns x without aborting. -/
theorem share_ring_and_reconstruct {F : Type} [Field F] [DecidableEq F]
    (x x1 x2 : F) :
    ((share F x x1 x2).1.right = (share F x x1 x2).2.1.left ∧
      (share F x x1 x2).2.1.right = (share F x x1 x2).2.2.left ∧
      (share F x x1 x2).2.2.right = (share F x x1 x2).1.left) ∧
    (share F x x1 x2).1.left + (share F x x1 x2).2.1.left +
      (share F x x1 x2).2.2.left = x ∧
    (share F x x1 x2).1.right + (share F x x1 x2).2.1.right +
      (share F x x1 x2).2.2.right = x ∧
    validate_and_reconstruct F (share F x x1 x2).1 (share F x x1 x2).2.1
      (share F x x1 x2).2.2 = some x := by
  refine ⟨⟨rfl, rfl, rfl⟩, ?_, ?_, ?_⟩
  · show x1 + x2 + (x - (x1 + x2)) = x
    ring
  · show x2 + (x - (x1 + x2)) + x1 = x
    ring
  · unfold validate_and_reconstruct
    rw [if_pos]
    · show some (x1 + x2 + (x - (x1 + x2))) = some x
      exact congrArg some (by ring)
    · show x1 + x2 + (x - (x1 + x2)) = x2 + (x - (x1 + x2)) + x1 ∧
        x2 = x2 ∧ x - (x1 + x2) = x - (x1 + x2) ∧ x1 = x1
      exact ⟨by ring, rfl, rfl, rfl⟩

/-- C8: verify_proof is deterministic: two runs with identical chunk
sequences, out_share, proof and challenge produce identical b_share and
identical new verifier states, with no dependence on any state outside the
arguments. -/
theorem verify_proof_deterministic {F : Type} [Field F] (lam : ℕ)
    (chunksA chunksB : List (List F)) (outA outB : F) (zkpA zkpB : List F)
    (rA rB : F) (hc : chunksA = chunksB) (ho : outA = outB) (hz : zkpA = zkpB)
    (hr : rA = rB) :
    verify_proof F lam chunksA outA zkpA rA =
      verify_proof F lam chunksB outB zkpB rB := by
  rw [hc, ho, hz, hr]

/-- Witness for C8 over ZMod 31. -/
theorem verify_proof_deterministic_witness :
    (([[1, 2]] : List (List (ZMod 31))) = [[1, 2]]) ∧
    ((3 : ZMod 31) = 3) ∧
    (([4, 5, 6] : List (ZMod 31)) = [4, 5, 6]) ∧
    ((7 : ZMod 31) = 7) ∧
    verify_proof (ZMod 31) 2 [[1, 2]] 3 [4, 5, 6] 7 =
      verify_proof (ZMod 31) 2 [[1, 2]] 3 [4, 5, 6] 7 :=
  ⟨rfl, rfl, rfl, rfl,
    verify_proof_deterministic 2 [[1, 2]] [[1, 2]] 3 3 [4, 5, 6] [4, 5, 6] 7 7
      rfl rfl rfl rfl⟩

/-- C9: verify_final_proof returns a result exactly when the verifier state
holds exactly one chunk; in particular a state holding zero chunks also
aborts, not only a state holding more than one chunk. -/
theorem verify_final_proof_isSome_iff {F : Type} [Field F] (lam : ℕ)
    (pv : ProofVerifier F) (zkp : List F) (r mask : F) :
    (verify_final_proof F lam pv zkp r mask).isSome = true ↔
      pv.u_or_v.length = 1 := by
  unfold verify_final_proof
  by_cases h : pv.u_or_v.length = 1
  · rw [if_pos h]
    simp [h]
  · rw [if_neg h]
    simp [h]

/-- C10: the method call verify_final_proof leaves the verifier state
unchanged, so calling it again with the same proof, challenge and masking
value returns the same pair of shares. -/
theorem verify_final_proof_frame {F : Type} [Field F] (lam : ℕ)
    (pv pvAfter : ProofVerifier F) (zkp : List F) (r mask : F) (res : F × F)
    (h : verify_final_proof_call F lam pv zkp r mask = some (res, pvAfter)) :
    pvAfter = pv ∧
      verify_final_proof_call F lam pvAfter zkp r mask = some (res, pvAfter) := by
  unfold verify_final_proof_call at h ⊢
  cases hv : verify_final_proof F lam pv zkp r mask with
  | none =>
      rw [hv] at h
      exact absurd h (by simp)
  | some v =>
      rw [hv] at h
      simp only [Option.map_some', Option.some.injEq, Prod.mk.injEq] at h
      obtain ⟨hres, hpv⟩ := h
      subst hpv
      subst hres
      exact ⟨rfl, by rw [hv]; rfl⟩

/-- Witness for C10 on a one-chunk state over ZMod 31. -/
theorem verify_final_proof_frame_witness :
    verify_final_proof_call (ZMod 31) 1 ⟨[[3]], 5⟩ [1, 2, 3] 2 4 =
      some ((2, 3), ⟨[[3]], 5⟩) ∧
    ((⟨[[3]], 5⟩ : ProofVerifier (ZMod 31)) = ⟨[[3]], 5⟩ ∧
      verify_final_proof_call (ZMod 31) 1 ⟨[[3]], 5⟩ [1, 2, 3] 2 4 =
        some ((2, 3), ⟨[[3]], 5⟩)) := by
  have hp : verify_final_proof_call (ZMod 31) 1 ⟨[[3]], 5⟩ [1, 2, 3] 2 4 =
      some ((2, 3), ⟨[[3]], 5⟩) := by
    simp only [verify_final_proof_call, verify_final_proof, lagrangeTable,
      lagrangeEval, canonicalLagrangeDenominator, zmod31_inv_eq]
    decide
  exact ⟨hp, verify_final_proof_frame 1 ⟨[[3]], 5⟩ ⟨[[3]], 5⟩ [1, 2, 3] 2 4 (2, 3) hp⟩

/-- C5: in the field of modulus 31 with lam = 4, running verify_proof on the
32-element sample input grouped into 4-element chunks, with prior out_share 27,
proof [0,0,13,17,11,25,7] and challenge r = 22 yields b_share 3, compressed
data [0,0,26,0,7,18,24,13] and new out_share 0; a second verify_proof on that
output with proof [11,25,17,9,22,23,3] and r = 17 yields b_share 0 and
out_share 13; after truncating the remaining chunk to lam = 2,
verify_final_proof with proof [21,1,6,25,1], r = 30 and masking value 12
yields opened value 30 and final out_share 0. -/
theorem sample_proof_u_scenario :
    sampleUStep1.1 = 3 ∧
    sampleUStep1.2.u_or_v = [[0, 0, 26, 0], [7, 18, 24, 13]] ∧
    sampleUStep1.2.out_share = 0 ∧
    sampleUStep2.1 = 0 ∧
    sampleUStep2.2.out_share = 13 ∧
    sampleUFinal = some (30, 0) := by
  simp only [sampleUFinal, sampleUTrimmed, sampleUStep2, sampleUStep1,
    sampleUChunks, verify_proof, verify_final_proof, compressChunks,
    compressChunksAux, lagrangeTable, lagrangeEval, canonicalLagrangeDenominator,
    zmod31_inv_eq]
  decide

end IPA
